import Mathlib

/-
Verification development for mbutil (mbutil/util.py).

The Python source is shallowly embedded below:
* `flip_y` mirrors util.py line 18.
* The compaction engine `compression_do` (util.py lines 84-139) is embedded as a
  pure function over an input tile table given as a list of rows.  The SQLite
  `tiles` table is modelled as `List TileRow`, where the list position `i`
  corresponds to `rowid = i + 1` (rowids of a freshly imported table are the
  contiguous sequence 1..N, and the rowid-window select on lines 102-103 then
  slices the list into consecutive chunks).  Blobs are modelled as `List Nat`
  (byte sequences); Python `bytes` equality is byte-wise equality.
  The insert on line 129 stores `str(last_id)` into the `tile_id` column of
  `images`; that column is declared `integer`, so SQLite's column affinity
  converts the text to the integer value, which is what the embedding stores.
* `compression_finalize` (util.py lines 141-156) replaces the `tiles` table by
  the view `map JOIN images ON images.tile_id = map.tile_id`; reading that view
  is embedded as `tilesView`.
* The upload pipeline (util.py lines 397-469): the resume lists loaded when
  the module loads (lines 416-425), `get_upload_url` (lines 397-412) and
  `upload_file` (lines 427-469).  Network interaction is modelled by an
  oracle of per-attempt events; `time.sleep` applied to a header value is
  modelled including Python's runtime type check (sleeping on a `str` raises
  `TypeError`).
* The grid-publishing tail and the maxzoom filter of `mbtiles_to_url`
  (util.py lines 512-553).
-/

namespace Mbutil

/-! ## Coordinate transform (util.py line 18) -/

/-- Embedding of `flip_y(zoom, y) = (2**zoom-1) - y`.  `y` is a Python int
(arbitrary-precision signed), `zoom` is restricted to naturals: for a negative
zoom Python's `2**zoom` would be a float, outside this embedding's scope. -/
def flip_y (zoom : Nat) (y : Int) : Int := (2 ^ zoom - 1) - y

/-! ## Data model of the compaction engine (util.py lines 84-156) -/

/-- A blob: a byte sequence.  Python `bytes` equality is byte-wise. -/
abbrev ByteSeq := List Nat

/-- One row of the `tiles` table: `(zoom_level, tile_column, tile_row, tile_data)`. -/
structure TileRow where
  z : Int
  x : Int
  y : Int
  data : ByteSeq
deriving DecidableEq

/-- One row of the `map` table: `(zoom_level, tile_column, tile_row, tile_id)`. -/
structure MapRow where
  z : Int
  x : Int
  y : Int
  tile_id : Nat
deriving DecidableEq

/-- One row of the `images` table: `(tile_id, tile_data)`. -/
structure ImageRow where
  tile_id : Nat
  tile_data : ByteSeq
deriving DecidableEq

/-- The mutable state of one compaction pass: the `last_id` counter and the
contents of the `images` and `map` tables (both empty before the pass;
`compression_prepare` creates them fresh). -/
structure CompState where
  last_id : Nat
  images : List ImageRow
  map : List MapRow
deriving DecidableEq

/-- Python's `list.index` on blob lists: the position of the first occurrence
(the call sites only use it on members). -/
def idxOf (d : ByteSeq) : List ByteSeq → Nat
  | [] => 0
  | e :: es => if e = d then 0 else idxOf d es + 1

/-- Default row used with `List.getD`. -/
def dTile : TileRow := ⟨0, 0, 0, []⟩

/-- Default map row used with `List.getD`. -/
def dMap : MapRow := ⟨0, 0, 0, 0⟩

/-- The inner `for r in rows` loop of `compression_do` (util.py lines 107-138).
`ids` and `files` are the per-chunk accumulator lists (reset to `[]` at every
chunk, lines 99-100).  A row whose blob is already in `files` only gets a `map`
row reusing `ids[files.index(blob)]`; otherwise `last_id` is incremented and
both an `images` row and a `map` row are inserted. -/
def processChunk : List TileRow → List Nat → List ByteSeq → CompState → CompState
  | [], _, _, st => st
  | r :: rs, ids, files, st =>
    if r.data ∈ files then
      processChunk rs ids files
        { st with map := st.map ++ [⟨r.z, r.x, r.y, ids.getD (idxOf r.data files) 0⟩] }
    else
      processChunk rs (ids ++ [st.last_id + 1]) (files ++ [r.data])
        { last_id := st.last_id + 1
          images := st.images ++ [⟨st.last_id + 1, r.data⟩]
          map := st.map ++ [⟨r.z, r.x, r.y, st.last_id + 1⟩] }

/-- The outer `for i in range(total_tiles // chunk + 1)` loop of
`compression_do` (util.py line 96): round `i` selects the rows with
`i*chunk < rowid <= (i+1)*chunk`, i.e. `(tiles.take chunk)` after dropping the
earlier chunks, and processes them with freshly reset `ids`/`files`. -/
def compressionRounds (chunk : Nat) : Nat → List TileRow → CompState → CompState
  | 0, _, st => st
  | n + 1, tiles, st =>
      compressionRounds chunk n (tiles.drop chunk)
        (processChunk (tiles.take chunk) [] [] st)

/-- Embedding of `compression_do(cur, con, chunk, silent)` run over an input
tile table.  `total_tiles` is the row count of `tiles`. -/
def compression_do (chunk : Nat) (tiles : List TileRow) : CompState :=
  compressionRounds chunk (tiles.length / chunk + 1) tiles ⟨0, [], []⟩

/-- Reading the `tiles` view created by `compression_finalize` (util.py lines
145-150): `map JOIN images ON images.tile_id = map.tile_id`, projected to
`(zoom_level, tile_column, tile_row, tile_data)`.  The join is evaluated
map-major: each `map` row is paired with every `images` row of equal
`tile_id`. -/
def tilesView (st : CompState) : List TileRow :=
  st.map.flatMap fun e =>
    (st.images.filter fun im => im.tile_id == e.tile_id).map fun im =>
      ⟨e.z, e.x, e.y, im.tile_data⟩

/-- The blob id assigned to each input tile, in input (rowid) order: the
`tile_id` column of the `map` rows produced by one compaction pass. -/
def blobIds (chunk : Nat) (tiles : List TileRow) : List Nat :=
  (compression_do chunk tiles).map.map MapRow.tile_id

/-! ### Reference decomposition of the compaction pass

The following functions compute, chunk by chunk, the same tables that
`compression_do` builds; `compression_do_char` below proves the two agree.
They exist to expose the per-chunk structure (duplicate detection is local to
one chunk because `ids`/`files` are reset at lines 99-100). -/

/-- Fold the blobs of one chunk into the `files` accumulator, keeping the first
occurrence of every blob (this is the set of blobs that get fresh ids). -/
def addSeen : List ByteSeq → List ByteSeq → List ByteSeq
  | files, [] => files
  | files, d :: ds => addSeen (if d ∈ files then files else files ++ [d]) ds

/-- The ids handed out while `files` has the given length, starting after `l`:
`[l+1, l+2, ..., l+n]`. -/
def idsFrom (l : Nat) : Nat → List Nat
  | 0 => []
  | n + 1 => (l + 1) :: idsFrom (l + 1) n

/-- The `images` rows created for the distinct blobs `fs` of one chunk when the
chunk started with `last_id = l`. -/
def zipRF (l : Nat) : List ByteSeq → List ImageRow
  | [] => []
  | d :: ds => ⟨l + 1, d⟩ :: zipRF (l + 1) ds

/-- The `map` rows created for the rows of one chunk, where `files` is the
chunk's final distinct-blob list and `l` the `last_id` at chunk start. -/
def chunkAssignIds (l : Nat) (files : List ByteSeq) (rows : List TileRow) : List MapRow :=
  rows.map fun r => ⟨r.z, r.x, r.y, l + 1 + idxOf r.data files⟩

/-- The rows selected for round `c`: `(i*chunk < rowid <= (i+1)*chunk)`. -/
def chunkOf (chunk : Nat) (tiles : List TileRow) (c : Nat) : List TileRow :=
  (tiles.drop (c * chunk)).take chunk

/-- The distinct blobs of round `c`, in first-occurrence order. -/
def chunkSeenAt (chunk : Nat) (tiles : List TileRow) (c : Nat) : List ByteSeq :=
  addSeen [] ((chunkOf chunk tiles c).map TileRow.data)

/-- Value of `last_id` when round `c` starts (relative to a pass that started
at 0): the number of distinct blobs of all earlier rounds. -/
def baseAt (chunk : Nat) (tiles : List TileRow) : Nat → Nat
  | 0 => 0
  | c + 1 => baseAt chunk tiles c + (chunkSeenAt chunk tiles c).length

/-- The `images` table contents produced by `n` rounds. -/
def refImages (chunk : Nat) : Nat → List TileRow → Nat → List ImageRow
  | 0, _, _ => []
  | n + 1, tiles, l =>
      zipRF l (chunkSeenAt chunk tiles 0)
        ++ refImages chunk n (tiles.drop chunk) (l + (chunkSeenAt chunk tiles 0).length)

/-- The `map` table contents produced by `n` rounds. -/
def refMap (chunk : Nat) : Nat → List TileRow → Nat → List MapRow
  | 0, _, _ => []
  | n + 1, tiles, l =>
      chunkAssignIds l (chunkSeenAt chunk tiles 0) (tiles.take chunk)
        ++ refMap chunk n (tiles.drop chunk) (l + (chunkSeenAt chunk tiles 0).length)

/-- The `last_id` value after `n` rounds. -/
def refLast (chunk : Nat) : Nat → List TileRow → Nat → Nat
  | 0, _, l => l
  | n + 1, tiles, l => refLast chunk n (tiles.drop chunk) (l + (chunkSeenAt chunk tiles 0).length)

/-! ## Claim statements about the compaction pass, as the spec phrases them -/

/-- No two distinct input tiles carry byte-identical blobs. -/
def noDupBlobs (tiles : List TileRow) : Prop :=
  ∀ i, i < tiles.length → ∀ j, j < tiles.length →
    (tiles.getD i dTile).data = (tiles.getD j dTile).data → i = j

/-- The spec's deduplication property: two tiles resolve to the same blob id
exactly when their blobs are byte-identical. -/
def dedupClaim (chunk : Nat) (tiles : List TileRow) : Prop :=
  ∀ i, i < tiles.length → ∀ j, j < tiles.length →
    ((tiles.getD i dTile).data = (tiles.getD j dTile).data ↔
      (blobIds chunk tiles).getD i 0 = (blobIds chunk tiles).getD j 0)

/-- The spec's count invariants after one pass, including the claimed
`count(images) = count(map)` iff no duplicate blobs existed anywhere. -/
def countsClaim (chunk : Nat) (tiles : List TileRow) : Prop :=
  (compression_do chunk tiles).map.length = tiles.length ∧
  (∀ e ∈ (compression_do chunk tiles).map,
    ((compression_do chunk tiles).images.filter
      (fun im => im.tile_id == e.tile_id)).length = 1) ∧
  (compression_do chunk tiles).images.length ≤ (compression_do chunk tiles).map.length ∧
  ((compression_do chunk tiles).images.length = (compression_do chunk tiles).map.length ↔
    noDupBlobs tiles)

/-- Two tiles at different coordinates carrying byte-identical blobs. -/
def exDupTiles : List TileRow := [⟨0, 0, 0, [7]⟩, ⟨0, 1, 0, [7]⟩]

/-! ## Resume state (util.py lines 414-425) -/

/-- The two optional resume logs.  `none` models the `open` call raising (file
absent), `some lines` models a successfully read file with the given stripped
lines — possibly the empty list for an empty file.  Note lines 420-425 set
`use_failures = True` whenever the `open` succeeds, regardless of content. -/
structure ResumeLists where
  success : Option (List String)
  failure : Option (List String)

/-- The `processed` set (util.py lines 416-419): empty when the open failed. -/
def processedSet (r : ResumeLists) : List String := r.success.getD []

/-- The `failures` set (util.py lines 420-425): empty when the open failed. -/
def failuresSet (r : ResumeLists) : List String := r.failure.getD []

/-- The `use_failures` flag (util.py lines 422, 425): true iff the failure
file could be opened. -/
def use_failures (r : ResumeLists) : Bool := r.failure.isSome

/-! ## Upload attempts (util.py lines 427-469)

Each attempt interacts with the network; the interaction is captured by an
`AttemptEvent` oracle indexed by the attempt counter. -/

/-- Outcome of the `http.request("POST", ...)` call on util.py line 458:
either an HTTP status, or a raised transport exception (caught on line 467). -/
inductive PostResult
  | status (code : Nat)
  | exc
deriving DecidableEq

/-- Outcome of `get_upload_url` when the pool is empty (util.py line 442):
either it returns a token, or it raises (line 412) — the exception is caught by
the `except` on line 467. -/
inductive AcqResult
  | ok
  | fail
deriving DecidableEq

/-- What the outside world does during one attempt. -/
structure AttemptEvent where
  acq : AcqResult
  post : PostResult
deriving DecidableEq

/-- Shared state of the upload worker: the `upload_urls` token pool (tokens
numbered by acquisition order; `append`/`pop` act on the same end of the
Python list, modelled here with the head as that end) and the next fresh token
number. -/
structure UpState where
  pool : List Nat
  fresh : Nat
deriving DecidableEq

/-- Trace record of one attempt: the token used for the POST (if one was
obtained), the HTTP status (if the POST returned), and the state after. -/
structure AttemptRes where
  used : Option Nat
  status : Option Nat
  st : UpState
deriving DecidableEq

/-- Tail of one attempt once a token `t` is in hand (util.py lines 458-466):
on any response status other than 401 the token is appended back to the pool
(line 459-460); a transport exception loses the token. -/
def finishPost (post : PostResult) (t : Nat) (st : UpState) : AttemptRes :=
  match post with
  | .exc => ⟨some t, none, st⟩
  | .status n =>
      if n ≠ 401 then ⟨some t, some n, ⟨t :: st.pool, st.fresh⟩⟩
      else ⟨some t, some n, st⟩

/-- One iteration of the `for attempt in range(0,5)` loop body (util.py lines
436-468): pop a pooled token if available, else acquire a fresh one (which may
raise, caught by the `except`), then POST. -/
def attemptStep (ev : AttemptEvent) (st : UpState) : AttemptRes :=
  match st.pool with
  | t :: rest => finishPost ev.post t ⟨rest, st.fresh⟩
  | [] =>
      match ev.acq with
      | .ok => finishPost ev.post st.fresh ⟨[], st.fresh + 1⟩
      | .fail => ⟨none, none, st⟩

/-- The attempt loop (util.py line 435): run up to `n` attempts starting at
attempt index `i`; stop early returning success on status 200 (line 461-463).
Returns the trace of attempts, the final shared state, and whether a 200 was
reached. -/
def runAttempts (evs : Nat → AttemptEvent) : Nat → Nat → UpState → List AttemptRes × UpState × Bool
  | 0, _, st => ([], st, false)
  | n + 1, i, st =>
      if (attemptStep (evs i) st).status = some 200 then
        ([attemptStep (evs i) st], (attemptStep (evs i) st).st, true)
      else
        (attemptStep (evs i) st :: (runAttempts evs n (i + 1) (attemptStep (evs i) st).st).1,
         (runAttempts evs n (i + 1) (attemptStep (evs i) st).st).2.1,
         (runAttempts evs n (i + 1) (attemptStep (evs i) st).st).2.2)

/-- Result of one `upload_file` call: whether the key was skipped by resume
filtering, the attempt trace, success flag, how many times the terminal
`Failure:` line was logged (line 469), and the final shared state. -/
structure FileRun where
  skipped : Bool
  trace : List AttemptRes
  succeeded : Bool
  failLogs : Nat
  st : UpState

/-- The attempt phase of `upload_file` (util.py lines 435-469): five attempts;
the terminal failure is logged exactly when the loop exhausts without a 200. -/
def uploadRun (evs : Nat → AttemptEvent) (st : UpState) : FileRun :=
  ⟨false, (runAttempts evs 5 0 st).1, (runAttempts evs 5 0 st).2.2,
   if (runAttempts evs 5 0 st).2.2 then 0 else 1, (runAttempts evs 5 0 st).2.1⟩

/-- Embedding of `upload_file(data, url, key)` (util.py lines 427-469).  The
resume guard (lines 428-434): in failures mode a key not in the failure list is
skipped; otherwise a key in the success list is skipped; all other keys run the
attempt loop. -/
def upload_file (r : ResumeLists) (key : String) (evs : Nat → AttemptEvent)
    (st : UpState) : FileRun :=
  if use_failures r then
    if key ∈ failuresSet r then uploadRun evs st else ⟨true, [], false, 0, st⟩
  else if key ∈ processedSet r then ⟨true, [], false, 0, st⟩
  else uploadRun evs st

/-- Invariant of the shared token pool: no token is pooled twice, and all
pooled tokens were acquired earlier than the next fresh one. -/
def PoolInv (st : UpState) : Prop :=
  st.pool.Nodup ∧ ∀ t ∈ st.pool, t < st.fresh

/-- A run whose POST raises a transport exception on every attempt. -/
def excEvents : Nat → AttemptEvent := fun _ => ⟨AcqResult.ok, PostResult.exc⟩

/-- The spec's resume-mode claim (mode chosen by presence *and non-emptiness*
of the failure list), quantified over all runs. -/
def failuresNonempty (r : ResumeLists) : Prop := ∃ l, r.failure = some l ∧ l ≠ []

/-- Statement of the claim: failure list present and non-empty selects
FailuresOnly (submit iff listed as failed); otherwise FullRun (submit iff not
listed as succeeded). -/
def resumeClaimStatement : Prop :=
  ∀ (r : ResumeLists) (key : String) (evs : Nat → AttemptEvent) (st : UpState),
    (failuresNonempty r →
      (((upload_file r key evs st).skipped = false) ↔ key ∈ failuresSet r)) ∧
    (¬ failuresNonempty r →
      (((upload_file r key evs st).skipped = false) ↔ key ∉ processedSet r))

/-! ## Token acquisition (util.py lines 397-412) -/

/-- One HTTP response to the lease request: status plus the optional
`Retry-After` header.  urllib3 header values are strings. -/
structure TokenResp where
  status : Nat
  retryAfter : Option String
deriving DecidableEq

/-- Argument handed to `time.sleep` on util.py line 406:
`resp.headers.get('Retry-After', s)` is the header's string value when the
header is present, else the integer `s`. -/
inductive SleepArg
  | str (v : String)
  | int (n : Nat)
deriving DecidableEq

/-- Python's `time.sleep` accepts a number and raises `TypeError` on a `str`;
`none` models the raise. -/
def pySleep : SleepArg → Option Nat
  | .str _ => none
  | .int n => some n

/-- The header lookup of util.py line 406. -/
def retryAfterArg (resp : TokenResp) (s : Nat) : SleepArg :=
  match resp.retryAfter with
  | some v => .str v
  | none => .int s

/-- What one iteration of the `while True` loop in `get_upload_url` does with
a response, given the current backoff `s` (util.py lines 400-412). -/
inductive AcqStep
  | ret
  | sleepRetry (seconds : Nat) (nextBackoff : Nat)
  | typeError
  | raiseFatal
deriving DecidableEq

/-- Embedding of one `get_upload_url` loop iteration (util.py lines 400-412):
200 returns the parsed token; 429 sleeps on the `Retry-After` header value
(the raw string when present — `time.sleep(str)` raises `TypeError` — else the
integer `s`) and resets `s` to 1; 503 sleeps `s` and doubles it; anything else
raises the fatal exception of line 412. -/
def getUploadUrlStep (resp : TokenResp) (s : Nat) : AcqStep :=
  if resp.status = 200 then .ret
  else if resp.status = 429 then
    match pySleep (retryAfterArg resp s) with
    | none => .typeError
    | some d => .sleepRetry d 1
  else if resp.status = 503 then .sleepRetry s (s * 2)
  else .raiseFatal

/-! ## Grid publishing and the maxzoom filter in `mbtiles_to_url`
(util.py lines 512-553) -/

/-- One row of the `grids` table. -/
structure GridRow where
  z : Int
  x : Int
  y : Int
  grid : ByteSeq
deriving DecidableEq

/-- The grid-publishing tail of `mbtiles_to_url` (util.py lines 544-553):
`none` models a store without a `grids` table (the select raises
`sqlite3.OperationalError`, caught at line 550, leaving `g = None`); an empty
table makes `fetchone()` return `None`; otherwise the `while g:` body raises
`Exception('grids are not supported')` on its first iteration. -/
def gridPhase (grids : Option (List GridRow)) : Except String Unit :=
  match grids with
  | none => .ok ()
  | some [] => .ok ()
  | some (_ :: _) => .error "grids are not supported"

/-- The tiles submitted for upload by `mbtiles_to_url` (util.py line 519):
the rows of `select ... from tiles where zoom_level <= maxzoom`, each of which
is submitted to the executor in cursor order. -/
def submittedTiles (maxzoom : Int) (tiles : List TileRow) : List TileRow :=
  tiles.filter fun t => decide (t.z ≤ maxzoom)

/-- The progress total of `mbtiles_to_url` (util.py line 512):
`select count(zoom_level) from tiles where zoom_level <= maxzoom`. -/
def reportedTileCount (maxzoom : Int) (tiles : List TileRow) : Nat :=
  tiles.countP fun t => decide (t.z ≤ maxzoom)

end Mbutil

namespace Mbutil

/-! ## Theorems -/

/-- C8: `flip_y(zoom, y)` equals `(2^zoom - 1) - y`, and is an involution on
`0 ≤ y < 2^zoom`. -/
theorem C8_flip_y_involution (zoom : Nat) (y : Int)
    (h0 : 0 ≤ y) (h1 : y < 2 ^ zoom) :
    flip_y zoom y = (2 ^ zoom - 1) - y ∧ flip_y zoom (flip_y zoom y) = y := by
  refine ⟨rfl, ?_⟩
  unfold flip_y
  ring

/-- Witness for C8 at `zoom = 3`, `y = 5`. -/
theorem C8_flip_y_involution_witness :
    (0 : Int) ≤ 5 ∧ (5 : Int) < 2 ^ 3 ∧
    (flip_y 3 5 = (2 ^ 3 - 1) - 5 ∧ flip_y 3 (flip_y 3 5) = 5) :=
  ⟨by decide, by decide, C8_flip_y_involution 3 5 (by decide) (by decide)⟩

/-- C9: the upload path raises the unsupported-feature error exactly when the
store holds at least one grid row; with no `grids` table or no grid rows it
completes the grid phase without that error. -/
theorem C9_grids_unsupported (grids : Option (List GridRow)) :
    (gridPhase grids = Except.error "grids are not supported" ↔
      ∃ g l, grids = some (g :: l)) ∧
    (gridPhase grids = Except.ok () ↔ (grids = none ∨ grids = some [])) := by
  rcases grids with _ | (_ | ⟨g, l⟩) <;> simp [gridPhase]

/-- C10: a tile is submitted by `mbtiles_to_url` iff its zoom level is at most
`maxzoom`, and the reported progress total equals the number of submitted
tiles. -/
theorem C10_maxzoom_filter (maxzoom : Int) (tiles : List TileRow) (t : TileRow) :
    (t ∈ submittedTiles maxzoom tiles ↔ t ∈ tiles ∧ t.z ≤ maxzoom) ∧
    reportedTileCount maxzoom tiles = (submittedTiles maxzoom tiles).length := by
  constructor
  · simp [submittedTiles, List.mem_filter]
  · simp [reportedTileCount, submittedTiles, List.countP_eq_length_filter]

/-- C4: evaluating one `get_upload_url` iteration.  With HTTP 429 and
`Retry-After: 3` present the code hands the header *string* to `time.sleep`,
which raises `TypeError` instead of sleeping — the claimed sleep-and-retry
behaviour only happens when the header is absent.  503 doubles the backoff,
other non-200 statuses raise the fatal exception, and 200 returns. -/
theorem C4_retry_after_type_error :
    getUploadUrlStep ⟨429, some "3"⟩ 1 = AcqStep.typeError ∧
    getUploadUrlStep ⟨429, none⟩ 1 = AcqStep.sleepRetry 1 1 ∧
    getUploadUrlStep ⟨503, none⟩ 1 = AcqStep.sleepRetry 1 2 ∧
    getUploadUrlStep ⟨503, none⟩ 2 = AcqStep.sleepRetry 2 4 ∧
    getUploadUrlStep ⟨500, none⟩ 1 = AcqStep.raiseFatal ∧
    getUploadUrlStep ⟨200, none⟩ 1 = AcqStep.ret := by
  decide

/-! ### Helper lemmas about the upload attempt loop -/

theorem finishPost_used (post : PostResult) (t : Nat) (st : UpState) :
    (finishPost post t st).used = some t := by
  cases post with
  | exc => rfl
  | status n =>
      by_cases h : n = 401
      · simp [finishPost, h]
      · simp [finishPost, h]

theorem finishPost_status_exc (t : Nat) (st : UpState) :
    (finishPost PostResult.exc t st).status = none := rfl

theorem finishPost_status_code (n t : Nat) (st : UpState) :
    (finishPost (PostResult.status n) t st).status = some n := by
  by_cases h : n = 401
  · simp [finishPost, h]
  · simp [finishPost, h]

theorem finishPost_st_401 (t : Nat) (st : UpState) :
    (finishPost (PostResult.status 401) t st).st = st := by
  simp [finishPost]

theorem finishPost_st_ne_401 (n : Nat) (hn : n ≠ 401) (t : Nat) (st : UpState) :
    (finishPost (PostResult.status n) t st).st = ⟨t :: st.pool, st.fresh⟩ := by
  simp [finishPost, hn]

theorem attemptStep_post_of_status {ev : AttemptEvent} {st : UpState} {n : Nat}
    (h : (attemptStep ev st).status = some n) : ev.post = PostResult.status n := by
  obtain ⟨pool, fresh⟩ := st
  obtain ⟨acq, post⟩ := ev
  cases pool with
  | nil =>
      cases acq with
      | ok =>
          cases post with
          | status c =>
              have hs : attemptStep ⟨AcqResult.ok, PostResult.status c⟩ ⟨[], fresh⟩ =
                  finishPost (PostResult.status c) fresh ⟨[], fresh + 1⟩ := rfl
              rw [hs, finishPost_status_code] at h
              injection h with h
              rw [h]
          | exc =>
              have hs : attemptStep ⟨AcqResult.ok, PostResult.exc⟩ ⟨[], fresh⟩ =
                  finishPost PostResult.exc fresh ⟨[], fresh + 1⟩ := rfl
              rw [hs, finishPost_status_exc] at h
              exact Option.noConfusion h
      | fail => simp [attemptStep] at h
  | cons t rest =>
      cases post with
      | status c =>
          have hs : attemptStep ⟨acq, PostResult.status c⟩ ⟨t :: rest, fresh⟩ =
              finishPost (PostResult.status c) t ⟨rest, fresh⟩ := rfl
          rw [hs, finishPost_status_code] at h
          injection h with h
          rw [h]
      | exc =>
          have hs : attemptStep ⟨acq, PostResult.exc⟩ ⟨t :: rest, fresh⟩ =
              finishPost PostResult.exc t ⟨rest, fresh⟩ := rfl
          rw [hs, finishPost_status_exc] at h
          exact Option.noConfusion h

theorem attemptStep_cases (ev : AttemptEvent) (st : UpState) (t : Nat)
    (hused : (attemptStep ev st).used = some t) :
    (∃ rest, st.pool = t :: rest ∧
      attemptStep ev st = finishPost ev.post t ⟨rest, st.fresh⟩) ∨
    (st.pool = [] ∧ ev.acq = AcqResult.ok ∧ t = st.fresh ∧
      attemptStep ev st = finishPost ev.post st.fresh ⟨[], st.fresh + 1⟩) := by
  obtain ⟨pool, fresh⟩ := st
  obtain ⟨acq, post⟩ := ev
  cases pool with
  | nil =>
      cases acq with
      | ok =>
          right
          have hs : attemptStep ⟨AcqResult.ok, post⟩ ⟨[], fresh⟩ =
              finishPost post fresh ⟨[], fresh + 1⟩ := rfl
          rw [hs, finishPost_used] at hused
          injection hused with hused
          exact ⟨rfl, rfl, hused.symm, hs⟩
      | fail => simp [attemptStep] at hused
  | cons t' rest =>
      left
      have hs : attemptStep ⟨acq, post⟩ ⟨t' :: rest, fresh⟩ =
          finishPost post t' ⟨rest, fresh⟩ := rfl
      rw [hs, finishPost_used] at hused
      injection hused with hused
      subst hused
      exact ⟨rest, rfl, hs⟩

theorem attemptStep_used_ne (st' : UpState) (t : Nat)
    (hpool : t ∉ st'.pool) (hfresh : t < st'.fresh)
    (ev2 : AttemptEvent) (t2 : Nat)
    (hused2 : (attemptStep ev2 st').used = some t2) : t2 ≠ t := by
  rcases attemptStep_cases ev2 st' t2 hused2 with ⟨rest, hp, _⟩ | ⟨_, _, ht2, _⟩
  · intro he
    apply hpool
    rw [← he, hp]
    exact List.mem_cons_self _ _
  · omega

theorem runAttempts_length_le (evs : Nat → AttemptEvent) :
    ∀ n i st, (runAttempts evs n i st).1.length ≤ n := by
  intro n
  induction n with
  | zero => intro i st; simp [runAttempts]
  | succ n ih =>
      intro i st
      simp only [runAttempts]
      split
      · simp
      · simpa using Nat.succ_le_succ (ih (i + 1) _)

theorem runAttempts_exhaust (evs : Nat → AttemptEvent)
    (hns : ∀ i, (evs i).post ≠ PostResult.status 200) :
    ∀ n i st, (runAttempts evs n i st).1.length = n ∧
      (runAttempts evs n i st).2.2 = false := by
  intro n
  induction n with
  | zero => intro i st; exact ⟨rfl, rfl⟩
  | succ n ih =>
      intro i st
      have hst : ¬ (attemptStep (evs i) st).status = some 200 := by
        intro h
        exact hns i (attemptStep_post_of_status h)
      simp only [runAttempts, if_neg hst]
      refine ⟨?_, (ih (i + 1) _).2⟩
      simp [(ih (i + 1) _).1]

theorem upload_file_trace_le (r : ResumeLists) (key : String)
    (evs : Nat → AttemptEvent) (st : UpState) :
    (upload_file r key evs st).trace.length ≤ 5 := by
  unfold upload_file uploadRun
  split_ifs <;> simp [runAttempts_length_le]

/-- C5: an eligible tile whose POSTs never return 200 is attempted exactly 5
times, recorded as failed exactly once, and `upload_file` returns normally. -/
theorem C5_retry_ceiling (r : ResumeLists) (key : String)
    (evs : Nat → AttemptEvent) (st : UpState)
    (helig : if use_failures r then key ∈ failuresSet r else key ∉ processedSet r)
    (hns : ∀ i, (evs i).post ≠ PostResult.status 200) :
    (upload_file r key evs st).skipped = false ∧
    (upload_file r key evs st).trace.length = 5 ∧
    (upload_file r key evs st).succeeded = false ∧
    (upload_file r key evs st).failLogs = 1 := by
  have hrun : upload_file r key evs st = uploadRun evs st := by
    unfold upload_file
    split_ifs with h1 h2 h2
    · rfl
    · rw [if_pos h1] at helig
      exact absurd helig h2
    · rw [if_neg h1] at helig
      exact absurd h2 helig
    · rfl
  have hex := runAttempts_exhaust evs hns 5 0 st
  rw [hrun]
  unfold uploadRun
  refine ⟨rfl, hex.1, hex.2, ?_⟩
  simp [hex.2]

/-- Witness for C5: a run whose POST raises a transport exception every time. -/
theorem C5_retry_ceiling_witness :
    (if use_failures ⟨none, none⟩ then "k" ∈ failuresSet ⟨none, none⟩
      else "k" ∉ processedSet ⟨none, none⟩) ∧
    (∀ i : Nat, (excEvents i).post ≠ PostResult.status 200) ∧
    ((upload_file ⟨none, none⟩ "k" excEvents ⟨[], 0⟩).skipped = false ∧
     (upload_file ⟨none, none⟩ "k" excEvents ⟨[], 0⟩).trace.length = 5 ∧
     (upload_file ⟨none, none⟩ "k" excEvents ⟨[], 0⟩).succeeded = false ∧
     (upload_file ⟨none, none⟩ "k" excEvents ⟨[], 0⟩).failLogs = 1) :=
  ⟨by decide, fun i => by simp [excEvents],
    C5_retry_ceiling ⟨none, none⟩ "k" excEvents ⟨[], 0⟩
      (by decide) (fun i => by simp [excEvents])⟩

/-- C6: under the pool invariant, a 401 response discards the token used — it
is absent from the pool afterwards and the next attempt from that state uses a
different token — while any non-401 response returns the token to the pool;
and no call of `upload_file` ever makes more than 5 attempts. -/
theorem C6_token_discard (st : UpState) (ev : AttemptEvent) (t s : Nat)
    (hinv : PoolInv st)
    (hused : (attemptStep ev st).used = some t)
    (hstat : (attemptStep ev st).status = some s) :
    (s = 401 →
      t ∉ (attemptStep ev st).st.pool ∧
      ∀ ev2 t2, (attemptStep ev2 (attemptStep ev st).st).used = some t2 → t2 ≠ t) ∧
    (s ≠ 401 → t ∈ (attemptStep ev st).st.pool) ∧
    (∀ (r : ResumeLists) (key : String) (evs : Nat → AttemptEvent) (st2 : UpState),
      (upload_file r key evs st2).trace.length ≤ 5) := by
  have hpost : ev.post = PostResult.status s := attemptStep_post_of_status hstat
  rcases attemptStep_cases ev st t hused with ⟨rest, hp, hs⟩ | ⟨hp, _, ht, hs⟩
  · -- token popped from the pool
    have hnotin : t ∉ rest := by
      have hnd := hinv.1
      rw [hp] at hnd
      exact (List.nodup_cons.1 hnd).1
    have hlt : t < st.fresh := hinv.2 t (by rw [hp]; exact List.mem_cons_self _ _)
    refine ⟨?_, ?_, fun r key evs st2 => upload_file_trace_le r key evs st2⟩
    · intro h401
      subst h401
      rw [hs, hpost, finishPost_st_401]
      exact ⟨hnotin, fun ev2 t2 hu => attemptStep_used_ne ⟨rest, st.fresh⟩ t hnotin hlt ev2 t2 hu⟩
    · intro hne
      rw [hs, hpost, finishPost_st_ne_401 s hne]
      exact List.mem_cons_self _ _
  · -- pool was empty, fresh token acquired
    subst ht
    refine ⟨?_, ?_, fun r key evs st2 => upload_file_trace_le r key evs st2⟩
    · intro h401
      subst h401
      rw [hs, hpost, finishPost_st_401]
      refine ⟨List.not_mem_nil _, fun ev2 t2 hu => ?_⟩
      exact attemptStep_used_ne ⟨[], st.fresh + 1⟩ st.fresh (List.not_mem_nil _)
        (Nat.lt_succ_self _) ev2 t2 hu
    · intro hne
      rw [hs, hpost, finishPost_st_ne_401 s hne]
      exact List.mem_cons_self _ _

/-- Witness for C6: empty pool, fresh token 0, POST answers 401. -/
theorem C6_token_discard_witness :
    PoolInv ⟨[], 0⟩ ∧
    (attemptStep ⟨AcqResult.ok, PostResult.status 401⟩ ⟨[], 0⟩).used = some 0 ∧
    (attemptStep ⟨AcqResult.ok, PostResult.status 401⟩ ⟨[], 0⟩).status = some 401 ∧
    (((401 : Nat) = 401 →
      (0 : Nat) ∉ (attemptStep ⟨AcqResult.ok, PostResult.status 401⟩ ⟨[], 0⟩).st.pool ∧
      ∀ ev2 t2,
        (attemptStep ev2 (attemptStep ⟨AcqResult.ok, PostResult.status 401⟩ ⟨[], 0⟩).st).used =
          some t2 → t2 ≠ 0) ∧
    ((401 : Nat) ≠ 401 →
      (0 : Nat) ∈ (attemptStep ⟨AcqResult.ok, PostResult.status 401⟩ ⟨[], 0⟩).st.pool) ∧
    (∀ (r : ResumeLists) (key : String) (evs : Nat → AttemptEvent) (st2 : UpState),
      (upload_file r key evs st2).trace.length ≤ 5)) :=
  ⟨⟨List.nodup_nil, by simp⟩, by decide, by decide,
    C6_token_discard ⟨[], 0⟩ ⟨AcqResult.ok, PostResult.status 401⟩ 0 401
      ⟨List.nodup_nil, by simp⟩ (by decide) (by decide)⟩

/-- C3 counterexample: with a failure file that is present but empty and an
empty success list, the claim (present *and non-empty* selects FailuresOnly)
places the run in FullRun mode and requires key `"k"` to be submitted, but the
code sets `use_failures` on mere presence and skips every key. -/
theorem C3_counterexample : ¬ resumeClaimStatement := by
  intro h
  have h2 := (h ⟨some [], some []⟩ "k" excEvents ⟨[], 0⟩).2 ?hne
  case hne =>
    rintro ⟨l, hl, hne⟩
    injection hl with hl
    exact hne hl.symm
  have hskip : (upload_file ⟨some [], some []⟩ "k" excEvents ⟨[], 0⟩).skipped = true := by
    rfl
  have hfalse := h2.mpr (by simp [processedSet])
  exact Bool.noConfusion (hfalse.symm.trans hskip)

/-- C3 amended: the mode switch is decided by mere *presence* of the failure
list (the `open` succeeding), regardless of whether it is empty.  In failures
mode a key is submitted iff it appears in the failure list; with the failure
list absent a key is submitted iff it is not in the success list. -/
theorem C3_amended_resume_mode (r : ResumeLists) (key : String)
    (evs : Nat → AttemptEvent) (st : UpState) :
    ((upload_file r key evs st).skipped = false) ↔
      (if use_failures r then key ∈ failuresSet r else key ∉ processedSet r) := by
  unfold upload_file uploadRun
  split_ifs with h1 h2 h3 <;> simp_all

/-! ### Helper lemmas about the compaction accumulators -/

theorem idxOf_cons_self (d : ByteSeq) (es : List ByteSeq) : idxOf d (d :: es) = 0 := by
  simp [idxOf]

theorem idxOf_lt_length {d : ByteSeq} : ∀ {fs : List ByteSeq}, d ∈ fs → idxOf d fs < fs.length := by
  intro fs
  induction fs with
  | nil => intro h; exact absurd h (List.not_mem_nil d)
  | cons e es ih =>
      intro h
      by_cases he : e = d
      · simp [idxOf, he]
      · rcases List.mem_cons.1 h with h | h
        · exact absurd h.symm he
        · simp only [idxOf, if_neg he, List.length_cons]
          exact Nat.succ_lt_succ (ih h)

theorem getD_idxOf {d : ByteSeq} : ∀ {fs : List ByteSeq}, d ∈ fs →
    fs.getD (idxOf d fs) [] = d := by
  intro fs
  induction fs with
  | nil => intro h; exact absurd h (List.not_mem_nil d)
  | cons e es ih =>
      intro h
      by_cases he : e = d
      · simp [idxOf, he]
      · rcases List.mem_cons.1 h with h | h
        · exact absurd h.symm he
        · simp only [idxOf, if_neg he, List.getD_cons_succ]
          exact ih h

theorem idxOf_append_of_mem {d : ByteSeq} : ∀ {fs : List ByteSeq}, d ∈ fs →
    ∀ t : List ByteSeq, idxOf d (fs ++ t) = idxOf d fs := by
  intro fs
  induction fs with
  | nil => intro h; exact absurd h (List.not_mem_nil d)
  | cons e es ih =>
      intro h t
      by_cases he : e = d
      · simp [idxOf, he]
      · rcases List.mem_cons.1 h with h | h
        · exact absurd h.symm he
        · simp only [List.cons_append, idxOf, if_neg he, List.append_eq]
          rw [ih h t]

theorem idxOf_append_of_not_mem {d : ByteSeq} : ∀ {fs : List ByteSeq}, d ∉ fs →
    ∀ t : List ByteSeq, idxOf d (fs ++ t) = fs.length + idxOf d t := by
  intro fs
  induction fs with
  | nil => intro _ t; simp
  | cons e es ih =>
      intro h t
      have he : e ≠ d := fun hc => h (hc ▸ List.mem_cons_self e es)
      have hes : d ∉ es := fun hc => h (List.mem_cons_of_mem e hc)
      simp only [List.cons_append, idxOf, if_neg he, List.length_cons, List.append_eq]
      rw [ih hes t]
      omega

/-- Distinct members of a list sit at distinct first-occurrence positions. -/
theorem idxOf_inj {d1 d2 : ByteSeq} {fs : List ByteSeq} (h1 : d1 ∈ fs) (h2 : d2 ∈ fs)
    (h : idxOf d1 fs = idxOf d2 fs) : d1 = d2 := by
  have g1 := getD_idxOf h1
  have g2 := getD_idxOf h2
  rw [← g1, ← g2, h]

theorem addSeen_nil (fs : List ByteSeq) : addSeen fs [] = fs := rfl

theorem addSeen_cons_mem {d : ByteSeq} {fs : List ByteSeq} (h : d ∈ fs) (ds : List ByteSeq) :
    addSeen fs (d :: ds) = addSeen fs ds := by
  simp [addSeen, h]

theorem addSeen_cons_not_mem {d : ByteSeq} {fs : List ByteSeq} (h : d ∉ fs) (ds : List ByteSeq) :
    addSeen fs (d :: ds) = addSeen (fs ++ [d]) ds := by
  simp [addSeen, h]

theorem addSeen_exists_append (ds : List ByteSeq) :
    ∀ fs : List ByteSeq, ∃ t, addSeen fs ds = fs ++ t := by
  induction ds with
  | nil => intro fs; exact ⟨[], by simp [addSeen_nil]⟩
  | cons d ds ih =>
      intro fs
      by_cases hd : d ∈ fs
      · obtain ⟨t, ht⟩ := ih fs
        exact ⟨t, by rw [addSeen_cons_mem hd, ht]⟩
      · obtain ⟨t, ht⟩ := ih (fs ++ [d])
        exact ⟨[d] ++ t, by rw [addSeen_cons_not_mem hd, ht, List.append_assoc]⟩

theorem mem_addSeen_left {x : ByteSeq} {fs : List ByteSeq} (h : x ∈ fs) (ds : List ByteSeq) :
    x ∈ addSeen fs ds := by
  obtain ⟨t, ht⟩ := addSeen_exists_append ds fs
  rw [ht]
  exact List.mem_append_left _ h

theorem mem_addSeen_of_mem {x : ByteSeq} (ds : List ByteSeq) :
    ∀ fs : List ByteSeq, x ∈ ds → x ∈ addSeen fs ds := by
  induction ds with
  | nil => intro fs h; exact absurd h (List.not_mem_nil x)
  | cons d ds ih =>
      intro fs h
      rcases List.mem_cons.1 h with h | h
      · subst h
        by_cases hd : x ∈ fs
        · rw [addSeen_cons_mem hd]
          exact mem_addSeen_left hd ds
        · rw [addSeen_cons_not_mem hd]
          exact mem_addSeen_left (List.mem_append_right _ (List.mem_singleton.2 rfl)) ds
      · by_cases hd : d ∈ fs
        · rw [addSeen_cons_mem hd]
          exact ih fs h
        · rw [addSeen_cons_not_mem hd]
          exact ih (fs ++ [d]) h

theorem idxOf_addSeen_of_mem {d : ByteSeq} {fs : List ByteSeq} (h : d ∈ fs)
    (ds : List ByteSeq) : idxOf d (addSeen fs ds) = idxOf d fs := by
  obtain ⟨t, ht⟩ := addSeen_exists_append ds fs
  rw [ht]
  exact idxOf_append_of_mem h t

theorem addSeen_nodup (ds : List ByteSeq) :
    ∀ fs : List ByteSeq, fs.Nodup → (addSeen fs ds).Nodup := by
  induction ds with
  | nil => intro fs h; exact h
  | cons d ds ih =>
      intro fs h
      by_cases hd : d ∈ fs
      · rw [addSeen_cons_mem hd]
        exact ih fs h
      · rw [addSeen_cons_not_mem hd]
        refine ih (fs ++ [d]) ?_
        rw [List.nodup_append]
        refine ⟨h, List.nodup_singleton d, ?_⟩
        intro x hx hxd
        rw [List.mem_singleton] at hxd
        subst hxd
        exact hd hx

theorem addSeen_length_le (ds : List ByteSeq) :
    ∀ fs : List ByteSeq, (addSeen fs ds).length ≤ fs.length + ds.length := by
  induction ds with
  | nil => intro fs; simp [addSeen_nil]
  | cons d ds ih =>
      intro fs
      by_cases hd : d ∈ fs
      · rw [addSeen_cons_mem hd]
        have h1 := ih fs
        simp only [List.length_cons]
        omega
      · rw [addSeen_cons_not_mem hd]
        have h1 := ih (fs ++ [d])
        simp only [List.length_append, List.length_singleton, List.length_cons,
          List.length_nil] at h1 ⊢
        omega

theorem addSeen_length_eq_iff (ds : List ByteSeq) :
    ∀ fs : List ByteSeq, fs.Nodup →
      ((addSeen fs ds).length = fs.length + ds.length ↔ (fs ++ ds).Nodup) := by
  induction ds with
  | nil => intro fs h; simp [addSeen_nil, h]
  | cons d ds ih =>
      intro fs h
      by_cases hd : d ∈ fs
      · rw [addSeen_cons_mem hd]
        have hle := addSeen_length_le ds fs
        simp only [List.length_cons]
        constructor
        · intro he
          exfalso
          omega
        · intro hnd
          exfalso
          rw [List.nodup_append] at hnd
          exact hnd.2.2 hd (List.mem_cons_self d ds)
      · rw [addSeen_cons_not_mem hd]
        have hnd' : (fs ++ [d]).Nodup := by
          rw [List.nodup_append]
          refine ⟨h, List.nodup_singleton d, ?_⟩
          intro x hx hxd
          rw [List.mem_singleton] at hxd
          subst hxd
          exact hd hx
        have hiff := ih (fs ++ [d]) hnd'
        have harith : (fs ++ [d]).length + ds.length = fs.length + (d :: ds).length := by
          simp only [List.length_append, List.length_singleton, List.length_cons,
            List.length_nil]
          omega
        rw [harith] at hiff
        rw [hiff, List.append_assoc]
        simp

theorem idsFrom_length (n : Nat) : ∀ l : Nat, (idsFrom l n).length = n := by
  induction n with
  | zero => intro l; rfl
  | succ n ih => intro l; simp [idsFrom, ih]

theorem idsFrom_concat (n : Nat) :
    ∀ l : Nat, idsFrom l (n + 1) = idsFrom l n ++ [l + n + 1] := by
  induction n with
  | zero => intro l; rfl
  | succ n ih =>
      intro l
      show (l + 1) :: idsFrom (l + 1) (n + 1) = idsFrom l (n + 1) ++ [l + (n + 1) + 1]
      rw [ih (l + 1)]
      show (l + 1) :: (idsFrom (l + 1) n ++ [l + 1 + n + 1]) =
        ((l + 1) :: idsFrom (l + 1) n) ++ [l + (n + 1) + 1]
      rw [List.cons_append]
      rw [show l + 1 + n + 1 = l + (n + 1) + 1 by omega]

theorem idsFrom_getD (n : Nat) :
    ∀ (l k : Nat), k < n → (idsFrom l n).getD k 0 = l + 1 + k := by
  induction n with
  | zero => intro l k h; omega
  | succ n ih =>
      intro l k h
      cases k with
      | zero => simp [idsFrom]
      | succ k =>
          have := ih (l + 1) k (by omega)
          simp only [idsFrom, List.getD_cons_succ]
          rw [this]
          omega

theorem zipRF_length (fs : List ByteSeq) : ∀ l : Nat, (zipRF l fs).length = fs.length := by
  induction fs with
  | nil => intro l; rfl
  | cons d ds ih => intro l; simp [zipRF, ih]

theorem zipRF_concat (fs : List ByteSeq) (d : ByteSeq) :
    ∀ l : Nat, zipRF l (fs ++ [d]) = zipRF l fs ++ [⟨l + fs.length + 1, d⟩] := by
  induction fs with
  | nil => intro l; simp [zipRF]
  | cons e es ih =>
      intro l
      simp only [List.cons_append, zipRF, List.length_cons, List.append_eq]
      rw [ih (l + 1)]
      rw [show l + 1 + es.length + 1 = l + (es.length + 1) + 1 by omega]

theorem zipRF_mem_bounds (fs : List ByteSeq) :
    ∀ l : Nat, ∀ p ∈ zipRF l fs, l < p.tile_id ∧ p.tile_id ≤ l + fs.length := by
  induction fs with
  | nil => intro l p hp; exact absurd hp (List.not_mem_nil p)
  | cons d ds ih =>
      intro l p hp
      rcases List.mem_cons.1 hp with hp | hp
      · subst hp
        simp
      · have := ih (l + 1) p hp
        simp [List.length_cons]
        omega

theorem zipRF_getD_mem (fs : List ByteSeq) :
    ∀ (l k : Nat), k < fs.length →
      (⟨l + 1 + k, fs.getD k []⟩ : ImageRow) ∈ zipRF l fs := by
  induction fs with
  | nil => intro l k h; simp at h
  | cons d ds ih =>
      intro l k h
      cases k with
      | zero => simp [zipRF]
      | succ k =>
          have := ih (l + 1) k (by simpa using Nat.lt_of_succ_lt_succ h)
          rw [show l + 1 + (k + 1) = l + 1 + 1 + k by omega]
          simp only [zipRF, List.getD_cons_succ]
          exact List.mem_cons_of_mem _ this

theorem zipRF_keys_nodup (fs : List ByteSeq) :
    ∀ l : Nat, ((zipRF l fs).map ImageRow.tile_id).Nodup := by
  induction fs with
  | nil => intro l; simp [zipRF]
  | cons d ds ih =>
      intro l
      simp only [zipRF, List.map_cons, List.nodup_cons]
      refine ⟨?_, ih (l + 1)⟩
      intro hmem
      rw [List.mem_map] at hmem
      obtain ⟨p, hp, hid⟩ := hmem
      have := (zipRF_mem_bounds ds (l + 1) p hp).1
      omega

theorem chunkAssignIds_cons (l : Nat) (F : List ByteSeq) (r : TileRow) (rs : List TileRow) :
    chunkAssignIds l F (r :: rs) =
      ⟨r.z, r.x, r.y, l + 1 + idxOf r.data F⟩ :: chunkAssignIds l F rs := rfl

theorem chunkAssignIds_length (l : Nat) (F : List ByteSeq) (rs : List TileRow) :
    (chunkAssignIds l F rs).length = rs.length := by
  simp [chunkAssignIds]

/-- Characterization of the inner chunk loop: starting from a state reached
with accumulator `files` (ids `l0+1 .. l0+files.length`), processing `rows`
extends the images by the fresh blobs of `rows` and appends one map row per
row, whose id is determined by the position of its blob in the chunk's final
first-occurrence list. -/
theorem processChunk_run (rows : List TileRow) :
    ∀ (files : List ByteSeq) (l0 : Nat) (img0 : List ImageRow) (map0 : List MapRow),
      files.Nodup →
      processChunk rows (idsFrom l0 files.length) files
          ⟨l0 + files.length, img0 ++ zipRF l0 files, map0⟩
        = ⟨l0 + (addSeen files (rows.map TileRow.data)).length,
           img0 ++ zipRF l0 (addSeen files (rows.map TileRow.data)),
           map0 ++ chunkAssignIds l0 (addSeen files (rows.map TileRow.data)) rows⟩ := by
  induction rows with
  | nil =>
      intro files l0 img0 map0 _
      simp [processChunk, addSeen_nil, chunkAssignIds]
  | cons r rs ih =>
      intro files l0 img0 map0 hnd
      by_cases hmem : r.data ∈ files
      · -- duplicate within the chunk: only a map row is added
        have hidx : idxOf r.data files < files.length := idxOf_lt_length hmem
        have hgetD : (idsFrom l0 files.length).getD (idxOf r.data files) 0 =
            l0 + 1 + idxOf r.data files := idsFrom_getD files.length _ _ hidx
        have hstep : processChunk (r :: rs) (idsFrom l0 files.length) files
            ⟨l0 + files.length, img0 ++ zipRF l0 files, map0⟩ =
            processChunk rs (idsFrom l0 files.length) files
              ⟨l0 + files.length, img0 ++ zipRF l0 files,
                map0 ++ [(⟨r.z, r.x, r.y, l0 + 1 + idxOf r.data files⟩ : MapRow)]⟩ := by
          simp only [processChunk, if_pos hmem, hgetD]
        rw [hstep,
          ih files l0 img0 (map0 ++ [(⟨r.z, r.x, r.y, l0 + 1 + idxOf r.data files⟩ : MapRow)]) hnd]
        rw [List.map_cons, addSeen_cons_mem hmem, chunkAssignIds_cons]
        rw [idxOf_addSeen_of_mem hmem]
        simp
      · -- fresh blob: a new id, an images row and a map row are added
        have hnd' : (files ++ [r.data]).Nodup := by
          rw [List.nodup_append]
          refine ⟨hnd, List.nodup_singleton _, ?_⟩
          intro x hx hxd
          rw [List.mem_singleton] at hxd
          subst hxd
          exact hmem hx
        have hstep : processChunk (r :: rs) (idsFrom l0 files.length) files
            ⟨l0 + files.length, img0 ++ zipRF l0 files, map0⟩ =
            processChunk rs (idsFrom l0 (files ++ [r.data]).length) (files ++ [r.data])
              ⟨l0 + (files ++ [r.data]).length,
                img0 ++ zipRF l0 (files ++ [r.data]),
                map0 ++ [(⟨r.z, r.x, r.y, l0 + files.length + 1⟩ : MapRow)]⟩ := by
          simp only [processChunk, if_neg hmem]
          rw [List.length_append, List.length_singleton, idsFrom_concat files.length l0,
            zipRF_concat files r.data l0]
          rw [show l0 + files.length + 1 = l0 + (files.length + 1) by omega]
          simp [List.append_assoc]
        rw [hstep, ih (files ++ [r.data]) l0 img0
          (map0 ++ [(⟨r.z, r.x, r.y, l0 + files.length + 1⟩ : MapRow)]) hnd']
        rw [List.map_cons, addSeen_cons_not_mem hmem, chunkAssignIds_cons]
        have hio : idxOf r.data (addSeen (files ++ [r.data]) (rs.map TileRow.data)) =
            files.length := by
          rw [idxOf_addSeen_of_mem (List.mem_append_right _ (List.mem_singleton.2 rfl))]
          rw [idxOf_append_of_not_mem hmem]
          simp [idxOf_cons_self]
        rw [hio]
        rw [show l0 + 1 + files.length = l0 + files.length + 1 by omega]
        simp

/-! ### Chunk-decomposition structure lemmas -/

theorem chunkOf_zero (chunk : Nat) (tiles : List TileRow) :
    chunkOf chunk tiles 0 = tiles.take chunk := by
  simp [chunkOf]

theorem chunkOf_drop (chunk : Nat) (tiles : List TileRow) (c : Nat) :
    chunkOf chunk (tiles.drop chunk) c = chunkOf chunk tiles (c + 1) := by
  unfold chunkOf
  rw [List.drop_drop, Nat.succ_mul, Nat.add_comm chunk (c * chunk)]

theorem chunkSeenAt_drop (chunk : Nat) (tiles : List TileRow) (c : Nat) :
    chunkSeenAt chunk (tiles.drop chunk) c = chunkSeenAt chunk tiles (c + 1) := by
  unfold chunkSeenAt
  rw [chunkOf_drop]

theorem baseAt_succ (chunk : Nat) (tiles : List TileRow) (c : Nat) :
    baseAt chunk tiles (c + 1) = baseAt chunk tiles c + (chunkSeenAt chunk tiles c).length := rfl

theorem baseAt_drop (chunk : Nat) (tiles : List TileRow) :
    ∀ c : Nat, (chunkSeenAt chunk tiles 0).length + baseAt chunk (tiles.drop chunk) c =
      baseAt chunk tiles (c + 1) := by
  intro c
  induction c with
  | zero => simp [baseAt, baseAt_succ]
  | succ c ih =>
      rw [baseAt_succ chunk (tiles.drop chunk) c, baseAt_succ chunk tiles (c + 1),
        chunkSeenAt_drop]
      omega

theorem baseAt_mono (chunk : Nat) (tiles : List TileRow) {c c' : Nat} (h : c ≤ c') :
    baseAt chunk tiles c ≤ baseAt chunk tiles c' := by
  induction c' with
  | zero =>
      have hc0 : c = 0 := Nat.le_zero.1 h
      rw [hc0]
  | succ c' ih =>
      rcases Nat.eq_or_lt_of_le h with he | hl
      · rw [he]
      · have h1 := ih (Nat.lt_succ_iff.1 hl)
        rw [baseAt_succ]
        omega

/-- The rounds loop, characterized by the reference decomposition. -/
theorem compressionRounds_char (chunk : Nat) :
    ∀ (n : Nat) (tiles : List TileRow) (l : Nat) (img0 : List ImageRow) (map0 : List MapRow),
      compressionRounds chunk n tiles ⟨l, img0, map0⟩ =
        ⟨refLast chunk n tiles l, img0 ++ refImages chunk n tiles l,
          map0 ++ refMap chunk n tiles l⟩ := by
  intro n
  induction n with
  | zero =>
      intro tiles l img0 map0
      simp [compressionRounds, refLast, refImages, refMap]
  | succ n ih =>
      intro tiles l img0 map0
      show compressionRounds chunk n (tiles.drop chunk)
          (processChunk (tiles.take chunk) [] [] ⟨l, img0, map0⟩) = _
      have hc : processChunk (tiles.take chunk) [] [] ⟨l, img0, map0⟩ =
          ⟨l + (chunkSeenAt chunk tiles 0).length,
           img0 ++ zipRF l (chunkSeenAt chunk tiles 0),
           map0 ++ chunkAssignIds l (chunkSeenAt chunk tiles 0) (tiles.take chunk)⟩ := by
        have h := processChunk_run (tiles.take chunk) [] l img0 map0 List.nodup_nil
        simpa [idsFrom, zipRF, chunkSeenAt, chunkOf] using h
      rw [hc, ih (tiles.drop chunk) (l + (chunkSeenAt chunk tiles 0).length)
        (img0 ++ zipRF l (chunkSeenAt chunk tiles 0))
        (map0 ++ chunkAssignIds l (chunkSeenAt chunk tiles 0) (tiles.take chunk))]
      have hL : refLast chunk (n + 1) tiles l =
          refLast chunk n (tiles.drop chunk) (l + (chunkSeenAt chunk tiles 0).length) := rfl
      have hI : refImages chunk (n + 1) tiles l =
          zipRF l (chunkSeenAt chunk tiles 0) ++
            refImages chunk n (tiles.drop chunk) (l + (chunkSeenAt chunk tiles 0).length) := rfl
      have hM : refMap chunk (n + 1) tiles l =
          chunkAssignIds l (chunkSeenAt chunk tiles 0) (tiles.take chunk) ++
            refMap chunk n (tiles.drop chunk) (l + (chunkSeenAt chunk tiles 0).length) := rfl
      rw [hL, hI, hM]
      simp [List.append_assoc]

/-- One compaction pass computes exactly the reference tables. -/
theorem compression_do_char (chunk : Nat) (tiles : List TileRow) :
    compression_do chunk tiles =
      ⟨refLast chunk (tiles.length / chunk + 1) tiles 0,
       refImages chunk (tiles.length / chunk + 1) tiles 0,
       refMap chunk (tiles.length / chunk + 1) tiles 0⟩ := by
  unfold compression_do
  rw [compressionRounds_char chunk (tiles.length / chunk + 1) tiles 0 [] []]
  simp

/-- The round count of the pass covers the whole table. -/
theorem chunk_cover (chunk : Nat) (hc : 0 < chunk) (n : Nat) :
    n ≤ (n / chunk + 1) * chunk := by
  have h1 := Nat.div_add_mod n chunk
  have h2 := Nat.mod_lt n hc
  calc n = chunk * (n / chunk) + n % chunk := h1.symm
  _ ≤ chunk * (n / chunk) + chunk := by omega
  _ = (n / chunk + 1) * chunk := by ring

theorem refMap_succ (chunk n : Nat) (tiles : List TileRow) (l : Nat) :
    refMap chunk (n + 1) tiles l =
      chunkAssignIds l (chunkSeenAt chunk tiles 0) (tiles.take chunk)
        ++ refMap chunk n (tiles.drop chunk) (l + (chunkSeenAt chunk tiles 0).length) := rfl

theorem refImages_succ (chunk n : Nat) (tiles : List TileRow) (l : Nat) :
    refImages chunk (n + 1) tiles l =
      zipRF l (chunkSeenAt chunk tiles 0)
        ++ refImages chunk n (tiles.drop chunk) (l + (chunkSeenAt chunk tiles 0).length) := rfl

theorem refLast_succ (chunk n : Nat) (tiles : List TileRow) (l : Nat) :
    refLast chunk (n + 1) tiles l =
      refLast chunk n (tiles.drop chunk) (l + (chunkSeenAt chunk tiles 0).length) := rfl

theorem chunkAssignIds_getD (l : Nat) (F : List ByteSeq) (rows : List TileRow) (i : Nat)
    (h : i < rows.length) :
    (chunkAssignIds l F rows).getD i dMap =
      ⟨(rows.getD i dTile).z, (rows.getD i dTile).x, (rows.getD i dTile).y,
        l + 1 + idxOf (rows.getD i dTile).data F⟩ := by
  unfold chunkAssignIds
  rw [List.getD_eq_getElem _ _ (by simpa using h), List.getElem_map,
    List.getD_eq_getElem _ _ h]

theorem drop_length_le (chunk n : Nat) (tiles : List TileRow)
    (h : tiles.length ≤ (n + 1) * chunk) : (tiles.drop chunk).length ≤ n * chunk := by
  rw [List.length_drop]
  have hmul : (n + 1) * chunk = n * chunk + chunk := Nat.succ_mul n chunk
  omega

theorem refMap_length (chunk : Nat) :
    ∀ (n : Nat) (tiles : List TileRow), tiles.length ≤ n * chunk →
      ∀ l : Nat, (refMap chunk n tiles l).length = tiles.length := by
  intro n
  induction n with
  | zero =>
      intro tiles h l
      have h0 : tiles.length = 0 := by
        have : (0 : Nat) * chunk = 0 := Nat.zero_mul chunk
        omega
      simp [refMap, h0]
  | succ n ih =>
      intro tiles h l
      have hdrop := drop_length_le chunk n tiles h
      have hrec := ih (tiles.drop chunk) hdrop (l + (chunkSeenAt chunk tiles 0).length)
      rw [refMap_succ, List.length_append, chunkAssignIds_length, hrec,
        List.length_take, List.length_drop, Nat.min_def]
      split_ifs <;> omega

/-- Positional characterization of the map rows: the row for the tile at
(0-based) position `i` carries that tile's coordinates and the id determined
by chunk `i / chunk`: the `last_id` at the chunk's start plus one plus the
position of the blob in the chunk's first-occurrence list. -/
theorem refMap_getD (chunk : Nat) (hc : 0 < chunk) :
    ∀ (n : Nat) (tiles : List TileRow) (l : Nat) (i : Nat),
      i < tiles.length → tiles.length ≤ n * chunk →
      (refMap chunk n tiles l).getD i dMap =
        ⟨(tiles.getD i dTile).z, (tiles.getD i dTile).x, (tiles.getD i dTile).y,
          l + baseAt chunk tiles (i / chunk) + 1 +
            idxOf (tiles.getD i dTile).data (chunkSeenAt chunk tiles (i / chunk))⟩ := by
  intro n
  induction n with
  | zero =>
      intro tiles l i hi hle
      exact absurd hi (by have : (0 : Nat) * chunk = 0 := Nat.zero_mul chunk; omega)
  | succ n ih =>
      intro tiles l i hi hle
      rw [refMap_succ]
      by_cases hcase : i < (tiles.take chunk).length
      · -- the tile sits in the first chunk of this round
        have hich : i < chunk := by
          have := List.length_take chunk tiles
          have := Nat.min_le_left chunk tiles.length
          omega
        have hdiv : i / chunk = 0 := Nat.div_eq_of_lt hich
        rw [List.getD_append _ _ _ _ (by rw [chunkAssignIds_length]; exact hcase)]
        rw [chunkAssignIds_getD _ _ _ _ hcase]
        have hgt : (tiles.take chunk).getD i dTile = tiles.getD i dTile := by
          rw [List.getD_eq_getElem _ _ hcase, List.getD_eq_getElem _ _ hi, List.getElem_take]
        rw [hgt, hdiv]
        have hb0 : baseAt chunk tiles 0 = 0 := rfl
        rw [hb0]
      · -- the tile sits in a later chunk
        push_neg at hcase
        have htl : (tiles.take chunk).length = chunk := by
          rw [List.length_take, Nat.min_def]
          split_ifs with hch
          · rfl
          · rw [List.length_take, Nat.min_def, if_neg hch] at hcase
            omega
        have hchle : chunk ≤ i := by rw [htl] at hcase; exact hcase
        obtain ⟨j, rfl⟩ : ∃ j, i = chunk + j := ⟨i - chunk, by omega⟩
        have hj : j < (tiles.drop chunk).length := by
          rw [List.length_drop]; omega
        have hle' := drop_length_le chunk n tiles hle
        rw [List.getD_append_right _ _ _ _ (by rw [chunkAssignIds_length, htl]; exact hchle)]
        rw [chunkAssignIds_length, htl, show chunk + j - chunk = j by omega]
        rw [ih (tiles.drop chunk) (l + (chunkSeenAt chunk tiles 0).length) j hj hle']
        have hdd : (tiles.drop chunk).getD j dTile = tiles.getD (chunk + j) dTile := by
          rw [List.getD_eq_getElem _ _ hj, List.getD_eq_getElem _ _ hi, List.getElem_drop]
        have hdiv : (chunk + j) / chunk = j / chunk + 1 := by
          rw [Nat.add_comm, Nat.add_div_right j hc]
        rw [hdd, hdiv, chunkSeenAt_drop]
        have hb := baseAt_drop chunk tiles (j / chunk)
        simp only [MapRow.mk.injEq, true_and]
        omega

theorem refLast_ge (chunk : Nat) :
    ∀ (n : Nat) (tiles : List TileRow) (l : Nat), l ≤ refLast chunk n tiles l := by
  intro n
  induction n with
  | zero => intro tiles l; exact Nat.le_refl l
  | succ n ih =>
      intro tiles l
      rw [refLast_succ]
      exact Nat.le_trans (Nat.le_add_right l _) (ih (tiles.drop chunk) _)

theorem refImages_length_last (chunk : Nat) :
    ∀ (n : Nat) (tiles : List TileRow) (l : Nat),
      l + (refImages chunk n tiles l).length = refLast chunk n tiles l := by
  intro n
  induction n with
  | zero => intro tiles l; simp [refImages, refLast]
  | succ n ih =>
      intro tiles l
      rw [refImages_succ, refLast_succ, List.length_append, zipRF_length]
      have h1 := ih (tiles.drop chunk) (l + (chunkSeenAt chunk tiles 0).length)
      omega

theorem refImages_bounds (chunk : Nat) :
    ∀ (n : Nat) (tiles : List TileRow) (l : Nat),
      ∀ p ∈ refImages chunk n tiles l, l < p.tile_id ∧ p.tile_id ≤ refLast chunk n tiles l := by
  intro n
  induction n with
  | zero => intro tiles l p hp; simp [refImages] at hp
  | succ n ih =>
      intro tiles l p hp
      rw [refImages_succ, List.mem_append] at hp
      rw [refLast_succ]
      rcases hp with hp | hp
      · have hb := zipRF_mem_bounds _ _ p hp
        have hge := refLast_ge chunk n (tiles.drop chunk)
          (l + (chunkSeenAt chunk tiles 0).length)
        omega
      · have hb := ih (tiles.drop chunk) (l + (chunkSeenAt chunk tiles 0).length) p hp
        omega

theorem refImages_keys_nodup (chunk : Nat) :
    ∀ (n : Nat) (tiles : List TileRow) (l : Nat),
      ((refImages chunk n tiles l).map ImageRow.tile_id).Nodup := by
  intro n
  induction n with
  | zero => intro tiles l; simp [refImages]
  | succ n ih =>
      intro tiles l
      rw [refImages_succ, List.map_append, List.nodup_append]
      refine ⟨zipRF_keys_nodup _ _, ih _ _, ?_⟩
      intro x hx hx'
      rw [List.mem_map] at hx hx'
      obtain ⟨p, hp, hpx⟩ := hx
      obtain ⟨q, hq, hqx⟩ := hx'
      have h2 := zipRF_mem_bounds _ _ p hp
      have h3 := refImages_bounds chunk n (tiles.drop chunk)
        (l + (chunkSeenAt chunk tiles 0).length) q hq
      omega

/-- Every chunk's image rows sit in the final images table: the images row for
position `k` of the first-occurrence list of chunk `c`. -/
theorem refImages_mem (chunk : Nat) (hc : 0 < chunk) :
    ∀ (n : Nat) (tiles : List TileRow) (l : Nat) (c k : Nat),
      c * chunk < tiles.length → k < (chunkSeenAt chunk tiles c).length →
      tiles.length ≤ n * chunk →
      (⟨l + baseAt chunk tiles c + 1 + k, (chunkSeenAt chunk tiles c).getD k []⟩ : ImageRow) ∈
        refImages chunk n tiles l := by
  intro n
  induction n with
  | zero =>
      intro tiles l c k hck hk hle
      exact absurd hck (by have : (0 : Nat) * chunk = 0 := Nat.zero_mul chunk; omega)
  | succ n ih =>
      intro tiles l c k hck hk hle
      rw [refImages_succ, List.mem_append]
      cases c with
      | zero =>
          left
          have hb : baseAt chunk tiles 0 = 0 := rfl
          rw [hb, show l + 0 + 1 + k = l + 1 + k by omega]
          exact zipRF_getD_mem _ _ _ hk
      | succ c =>
          right
          have hck2 : c * chunk + chunk < tiles.length := by
            rw [← Nat.succ_mul]
            exact hck
          have hck' : c * chunk < (tiles.drop chunk).length := by
            rw [List.length_drop]
            omega
          have hle' := drop_length_le chunk n tiles hle
          have hseen := chunkSeenAt_drop chunk tiles c
          have hbase := baseAt_drop chunk tiles c
          have hk' : k < (chunkSeenAt chunk (tiles.drop chunk) c).length := by
            rw [hseen]; exact hk
          have hm := ih (tiles.drop chunk) (l + (chunkSeenAt chunk tiles 0).length) c k
            hck' hk' hle'
          rw [hseen] at hm
          rw [show l + (chunkSeenAt chunk tiles 0).length + baseAt chunk (tiles.drop chunk) c
              + 1 + k = l + baseAt chunk tiles (c + 1) + 1 + k by omega] at hm
          exact hm

theorem refImages_le_refMap (chunk : Nat) :
    ∀ (n : Nat) (tiles : List TileRow) (l : Nat),
      (refImages chunk n tiles l).length ≤ (refMap chunk n tiles l).length := by
  intro n
  induction n with
  | zero => intro tiles l; simp [refImages, refMap]
  | succ n ih =>
      intro tiles l
      rw [refImages_succ, refMap_succ, List.length_append, List.length_append,
        zipRF_length, chunkAssignIds_length]
      have h1 : (chunkSeenAt chunk tiles 0).length ≤ (tiles.take chunk).length := by
        have h2 := addSeen_length_le ((tiles.take chunk).map TileRow.data) []
        unfold chunkSeenAt
        rw [chunkOf_zero]
        simpa using h2
      have h3 := ih (tiles.drop chunk) (l + (chunkSeenAt chunk tiles 0).length)
      omega

theorem refImages_len_eq_iff (chunk : Nat) :
    ∀ (n : Nat) (tiles : List TileRow) (l : Nat),
      ((refImages chunk n tiles l).length = (refMap chunk n tiles l).length ↔
        ∀ c, c < n → ((chunkOf chunk tiles c).map TileRow.data).Nodup) := by
  intro n
  induction n with
  | zero => intro tiles l; simp [refImages, refMap]
  | succ n ih =>
      intro tiles l
      rw [refImages_succ, refMap_succ, List.length_append, List.length_append,
        zipRF_length, chunkAssignIds_length]
      have h1 : (chunkSeenAt chunk tiles 0).length ≤ (tiles.take chunk).length := by
        have h2 := addSeen_length_le ((tiles.take chunk).map TileRow.data) []
        unfold chunkSeenAt
        rw [chunkOf_zero]
        simpa using h2
      have h3 := refImages_le_refMap chunk n (tiles.drop chunk)
        (l + (chunkSeenAt chunk tiles 0).length)
      have hsplit : (chunkSeenAt chunk tiles 0).length +
            (refImages chunk n (tiles.drop chunk)
              (l + (chunkSeenAt chunk tiles 0).length)).length =
          (tiles.take chunk).length +
            (refMap chunk n (tiles.drop chunk)
              (l + (chunkSeenAt chunk tiles 0).length)).length ↔
          ((chunkSeenAt chunk tiles 0).length = (tiles.take chunk).length ∧
            (refImages chunk n (tiles.drop chunk)
              (l + (chunkSeenAt chunk tiles 0).length)).length =
            (refMap chunk n (tiles.drop chunk)
              (l + (chunkSeenAt chunk tiles 0).length)).length) := by
        constructor
        · intro h; omega
        · intro h; omega
      rw [hsplit]
      have hfirst : ((chunkSeenAt chunk tiles 0).length = (tiles.take chunk).length ↔
          ((tiles.take chunk).map TileRow.data).Nodup) := by
        unfold chunkSeenAt
        rw [chunkOf_zero]
        have h4 := addSeen_length_eq_iff ((tiles.take chunk).map TileRow.data) []
          List.nodup_nil
        simpa using h4
      rw [hfirst, ih (tiles.drop chunk) (l + (chunkSeenAt chunk tiles 0).length)]
      constructor
      · rintro ⟨h0, hs⟩ c hcn
        cases c with
        | zero => rw [chunkOf_zero]; exact h0
        | succ c =>
            rw [← chunkOf_drop]
            exact hs c (by omega)
      · intro hall
        refine ⟨by rw [← chunkOf_zero chunk tiles]; exact hall 0 (by omega), ?_⟩
        intro c hcn
        rw [chunkOf_drop]
        exact hall (c + 1) (by omega)

theorem chunkOf_eq_nil (chunk : Nat) (tiles : List TileRow) (c : Nat)
    (h : tiles.length ≤ c * chunk) : chunkOf chunk tiles c = [] := by
  unfold chunkOf
  rw [List.drop_eq_nil_of_le h]
  exact List.take_nil

/-- Reading a chunk at a position inside it reads the underlying table. -/
theorem chunkOf_getD (chunk : Nat) (tiles : List TileRow) (c j : Nat)
    (hj : j < chunk) (hcj : c * chunk + j < tiles.length) :
    (chunkOf chunk tiles c).getD j dTile = tiles.getD (c * chunk + j) dTile := by
  unfold chunkOf
  have hlen1 : j < ((tiles.drop (c * chunk)).take chunk).length := by
    rw [List.length_take, List.length_drop, Nat.lt_min]
    exact ⟨hj, by omega⟩
  rw [List.getD_eq_getElem _ _ hlen1, List.getD_eq_getElem _ _ hcj]
  rw [List.getElem_take]
  rw [List.getElem_drop]

/-- The blob of the tile at position `i` appears in the first-occurrence list
of its own chunk. -/
theorem getD_mem_seen (chunk : Nat) (hc : 0 < chunk) (tiles : List TileRow) (i : Nat)
    (hi : i < tiles.length) :
    (tiles.getD i dTile).data ∈ chunkSeenAt chunk tiles (i / chunk) := by
  have hj : i % chunk < chunk := Nat.mod_lt _ hc
  have hdm : (i / chunk) * chunk + i % chunk = i := by
    rw [Nat.mul_comm]
    exact Nat.div_add_mod i chunk
  have hlt : (i / chunk) * chunk + i % chunk < tiles.length := by rw [hdm]; exact hi
  have hget := chunkOf_getD chunk tiles (i / chunk) (i % chunk) hj hlt
  rw [hdm] at hget
  have hlen : i % chunk < (chunkOf chunk tiles (i / chunk)).length := by
    unfold chunkOf
    rw [List.length_take, List.length_drop, Nat.lt_min]
    exact ⟨hj, by omega⟩
  have hmem : tiles.getD i dTile ∈ chunkOf chunk tiles (i / chunk) := by
    rw [← hget, List.getD_eq_getElem _ _ hlen]
    exact List.getElem_mem _
  unfold chunkSeenAt
  exact mem_addSeen_of_mem _ [] (List.mem_map_of_mem TileRow.data hmem)

/-- In a list whose keys are pairwise distinct, filtering by the key of a
member yields exactly that member. -/
theorem filter_key_eq_single :
    ∀ (imgs : List ImageRow), ((imgs.map ImageRow.tile_id).Nodup) →
      ∀ (k : Nat) (d : ByteSeq), (⟨k, d⟩ : ImageRow) ∈ imgs →
        imgs.filter (fun q => q.tile_id == k) = [⟨k, d⟩] := by
  intro imgs
  induction imgs with
  | nil => intro _ k d hp; exact absurd hp (List.not_mem_nil _)
  | cons a rest ih =>
      intro hnd k d hp
      rw [List.map_cons, List.nodup_cons] at hnd
      rcases List.mem_cons.1 hp with hp1 | hp1
      · rw [← hp1] at hnd ⊢
        have hrest : rest.filter (fun q => q.tile_id == k) = [] := by
          rw [List.filter_eq_nil_iff]
          intro q hq
          simp only [beq_iff_eq]
          intro hqe
          exact hnd.1 (List.mem_map.2 ⟨q, hq, hqe⟩)
        rw [List.filter_cons, if_pos (by simp), hrest]
      · have hkey : ¬ ((a.tile_id == k) = true) := by
          simp only [beq_iff_eq]
          intro he
          apply hnd.1
          rw [he]
          exact List.mem_map.2 ⟨⟨k, d⟩, hp1, rfl⟩
        rw [List.filter_cons, if_neg hkey]
        exact ih hnd.2 k d hp1

/-- A flat map each of whose element-images is a singleton is the map of those
singleton contents. -/
theorem flatMap_singletons (f : MapRow → List TileRow) :
    ∀ (m : List MapRow) (ts : List TileRow),
      List.Forall₂ (fun e t => f e = [t]) m ts → m.flatMap f = ts := by
  intro m
  induction m with
  | nil =>
      intro ts h
      cases h
      rfl
  | cons a m ih =>
      intro ts h
      cases h with
      | cons hat htail =>
          rw [List.flatMap_cons, hat, ih _ htail]
          rfl

/-- The blob id of the tile at position `i`, in closed form. -/
theorem blobIds_getD (chunk : Nat) (hc : 0 < chunk) (tiles : List TileRow) (i : Nat)
    (hi : i < tiles.length) :
    (blobIds chunk tiles).getD i 0 =
      baseAt chunk tiles (i / chunk) + 1 +
        idxOf (tiles.getD i dTile).data (chunkSeenAt chunk tiles (i / chunk)) := by
  unfold blobIds
  rw [compression_do_char]
  show ((refMap chunk (tiles.length / chunk + 1) tiles 0).map MapRow.tile_id).getD i 0 = _
  have hcov := chunk_cover chunk hc tiles.length
  have hlenM := refMap_length chunk (tiles.length / chunk + 1) tiles hcov 0
  have hm := refMap_getD chunk hc (tiles.length / chunk + 1) tiles 0 i hi hcov
  rw [List.getD_eq_getElem _ _ (by rw [List.length_map, hlenM]; exact hi),
    List.getElem_map, ← List.getD_eq_getElem _ dMap (by rw [hlenM]; exact hi), hm]
  simp

/-- Blob ids assigned in an earlier chunk are strictly below all blob ids of a
later chunk (ids never repeat across chunks). -/
theorem blobId_lt_of_chunk_lt (chunk : Nat) (hc : 0 < chunk) (tiles : List TileRow)
    {i j : Nat} (hi : i < tiles.length) (hj : j < tiles.length)
    (hlt : i / chunk < j / chunk) :
    (blobIds chunk tiles).getD i 0 < (blobIds chunk tiles).getD j 0 := by
  rw [blobIds_getD chunk hc tiles i hi, blobIds_getD chunk hc tiles j hj]
  have h1 : idxOf (tiles.getD i dTile).data (chunkSeenAt chunk tiles (i / chunk)) <
      (chunkSeenAt chunk tiles (i / chunk)).length :=
    idxOf_lt_length (getD_mem_seen chunk hc tiles i hi)
  have h2 := baseAt_succ chunk tiles (i / chunk)
  have h3 : baseAt chunk tiles (i / chunk + 1) ≤ baseAt chunk tiles (j / chunk) :=
    baseAt_mono chunk tiles (by omega)
  omega

/-- C1 counterexample: with chunk size 1 the two byte-identical blobs fall in
different chunks and receive the distinct ids 1 and 2, refuting the claim that
byte-identical blobs always share one blob id. -/
theorem C1_counterexample : ¬ dedupClaim 1 exDupTiles := by
  intro h
  have h2 := (h 0 (by decide) 1 (by decide)).1 (by decide)
  exact absurd h2 (by decide)

/-- C1 amended: duplicate detection is chunk-local.  Two tiles in the *same*
chunk (equal `i / chunk`) with byte-identical blobs get the same blob id, and
two tiles with differing blobs always get different blob ids; byte-identical
tiles in different chunks may get different ids (see the counterexample). -/
theorem C1_amended_dedup (chunk : Nat) (tiles : List TileRow) (i j : Nat)
    (hc : 0 < chunk) (hi : i < tiles.length) (hj : j < tiles.length) :
    (i / chunk = j / chunk → (tiles.getD i dTile).data = (tiles.getD j dTile).data →
      (blobIds chunk tiles).getD i 0 = (blobIds chunk tiles).getD j 0) ∧
    ((tiles.getD i dTile).data ≠ (tiles.getD j dTile).data →
      (blobIds chunk tiles).getD i 0 ≠ (blobIds chunk tiles).getD j 0) := by
  constructor
  · intro hdiv hdata
    rw [blobIds_getD chunk hc tiles i hi, blobIds_getD chunk hc tiles j hj, hdiv, hdata]
  · intro hdata
    rcases Nat.lt_trichotomy (i / chunk) (j / chunk) with hlt | heq | hgt
    · exact Nat.ne_of_lt (blobId_lt_of_chunk_lt chunk hc tiles hi hj hlt)
    · intro he
      rw [blobIds_getD chunk hc tiles i hi, blobIds_getD chunk hc tiles j hj, heq] at he
      have hidx : idxOf (tiles.getD i dTile).data (chunkSeenAt chunk tiles (j / chunk)) =
          idxOf (tiles.getD j dTile).data (chunkSeenAt chunk tiles (j / chunk)) := by
        omega
      have hmi := getD_mem_seen chunk hc tiles i hi
      rw [heq] at hmi
      have hmj := getD_mem_seen chunk hc tiles j hj
      exact hdata (idxOf_inj hmi hmj hidx)
    · exact (Nat.ne_of_lt (blobId_lt_of_chunk_lt chunk hc tiles hj hi hgt)).symm

/-- Witness for the amended C1 at chunk 2 with both duplicates in one chunk. -/
theorem C1_amended_dedup_witness :
    (0 : Nat) < 2 ∧ 0 < exDupTiles.length ∧ 1 < exDupTiles.length ∧
    ((0 / 2 = 1 / 2 → (exDupTiles.getD 0 dTile).data = (exDupTiles.getD 1 dTile).data →
        (blobIds 2 exDupTiles).getD 0 0 = (blobIds 2 exDupTiles).getD 1 0) ∧
      ((exDupTiles.getD 0 dTile).data ≠ (exDupTiles.getD 1 dTile).data →
        (blobIds 2 exDupTiles).getD 0 0 ≠ (blobIds 2 exDupTiles).getD 1 0)) :=
  ⟨by decide, by decide, by decide,
    C1_amended_dedup 2 exDupTiles 0 1 (by decide) (by decide) (by decide)⟩

/-- C2 counterexample: with chunk size 1, the two byte-identical blobs land in
different chunks, so `images` has as many rows as `map` even though duplicate
blobs existed — refuting the claimed equivalence of `count(images) =
count(map)` with absence of duplicates. -/
theorem C2_counterexample : ¬ countsClaim 1 exDupTiles := by
  intro h
  have hnd := h.2.2.2.mp (by decide)
  have h01 := hnd 0 (by decide) 1 (by decide) (by decide)
  exact absurd h01 (by decide)

/-- C2 amended: after one pass the `map` rows equal the input tiles in number,
every map row's `tile_id` matches exactly one `images` row, and
`count(images) ≤ count(map)`, with equality iff no two tiles *within a single
chunk* share byte-identical blobs (duplicates across chunks do not reduce the
image count). -/
theorem C2_amended_counts (chunk : Nat) (tiles : List TileRow) (hc : 0 < chunk) :
    (compression_do chunk tiles).map.length = tiles.length ∧
    (∀ e ∈ (compression_do chunk tiles).map,
      ((compression_do chunk tiles).images.filter
        (fun im => im.tile_id == e.tile_id)).length = 1) ∧
    (compression_do chunk tiles).images.length ≤ (compression_do chunk tiles).map.length ∧
    ((compression_do chunk tiles).images.length = (compression_do chunk tiles).map.length ↔
      ∀ c : Nat, ((chunkOf chunk tiles c).map TileRow.data).Nodup) := by
  have hcov := chunk_cover chunk hc tiles.length
  rw [compression_do_char]
  refine ⟨?_, ?_, ?_, ?_⟩
  · show (refMap chunk (tiles.length / chunk + 1) tiles 0).length = tiles.length
    exact refMap_length chunk _ tiles hcov 0
  · show ∀ e ∈ refMap chunk (tiles.length / chunk + 1) tiles 0,
      ((refImages chunk (tiles.length / chunk + 1) tiles 0).filter
        (fun im => im.tile_id == e.tile_id)).length = 1
    intro e he
    rw [List.mem_iff_getElem] at he
    obtain ⟨i, hilen, hie⟩ := he
    have hlenM := refMap_length chunk (tiles.length / chunk + 1) tiles hcov 0
    have hi : i < tiles.length := by rw [← hlenM]; exact hilen
    have hm := refMap_getD chunk hc (tiles.length / chunk + 1) tiles 0 i hi hcov
    rw [List.getD_eq_getElem _ _ hilen, hie] at hm
    have hmem := getD_mem_seen chunk hc tiles i hi
    have hk := idxOf_lt_length hmem
    have hcm : i / chunk * chunk < tiles.length := by
      have := Nat.div_mul_le_self i chunk
      omega
    have himg := refImages_mem chunk hc (tiles.length / chunk + 1) tiles 0 (i / chunk)
      (idxOf (tiles.getD i dTile).data (chunkSeenAt chunk tiles (i / chunk))) hcm hk hcov
    rw [getD_idxOf hmem] at himg
    have hsingle := filter_key_eq_single _ (refImages_keys_nodup chunk _ tiles 0)
      (0 + baseAt chunk tiles (i / chunk) + 1 +
        idxOf (tiles.getD i dTile).data (chunkSeenAt chunk tiles (i / chunk)))
      (tiles.getD i dTile).data himg
    rw [hm]
    show ((refImages chunk (tiles.length / chunk + 1) tiles 0).filter
      (fun im => im.tile_id == 0 + baseAt chunk tiles (i / chunk) + 1 +
        idxOf (tiles.getD i dTile).data (chunkSeenAt chunk tiles (i / chunk)))).length = 1
    rw [hsingle]
    rfl
  · show (refImages chunk (tiles.length / chunk + 1) tiles 0).length ≤
      (refMap chunk (tiles.length / chunk + 1) tiles 0).length
    exact refImages_le_refMap chunk _ tiles 0
  · show (refImages chunk (tiles.length / chunk + 1) tiles 0).length =
        (refMap chunk (tiles.length / chunk + 1) tiles 0).length ↔
      ∀ c : Nat, ((chunkOf chunk tiles c).map TileRow.data).Nodup
    rw [refImages_len_eq_iff chunk _ tiles 0]
    constructor
    · intro h c
      by_cases hcR : c < tiles.length / chunk + 1
      · exact h c hcR
      · have h1 : (tiles.length / chunk + 1) * chunk ≤ c * chunk :=
          Nat.mul_le_mul_right chunk (by omega)
        have hclen : tiles.length ≤ c * chunk := by omega
        rw [chunkOf_eq_nil chunk tiles c hclen]
        simp
    · intro h c _
      exact h c

/-- Witness for the amended C2 at chunk 2 on the duplicate-blob table. -/
theorem C2_amended_counts_witness :
    (0 : Nat) < 2 ∧
    ((compression_do 2 exDupTiles).map.length = exDupTiles.length ∧
     (∀ e ∈ (compression_do 2 exDupTiles).map,
       ((compression_do 2 exDupTiles).images.filter
         (fun im => im.tile_id == e.tile_id)).length = 1) ∧
     (compression_do 2 exDupTiles).images.length ≤ (compression_do 2 exDupTiles).map.length ∧
     ((compression_do 2 exDupTiles).images.length =
         (compression_do 2 exDupTiles).map.length ↔
       ∀ c : Nat, ((chunkOf 2 exDupTiles c).map TileRow.data).Nodup)) :=
  ⟨by decide, C2_amended_counts 2 exDupTiles (by decide)⟩

/-- C7: reading the view installed by `compression_finalize` returns, for any
input tile table and any chunk size, exactly the original rows — the same
(zoom, column, row) → blob mapping as before compaction. -/
theorem C7_view_equivalence (chunk : Nat) (hc : 0 < chunk) (tiles : List TileRow) :
    tilesView (compression_do chunk tiles) = tiles := by
  have hcov := chunk_cover chunk hc tiles.length
  rw [compression_do_char]
  show (refMap chunk (tiles.length / chunk + 1) tiles 0).flatMap
      (fun e => ((refImages chunk (tiles.length / chunk + 1) tiles 0).filter
        (fun im => im.tile_id == e.tile_id)).map
          (fun im => (⟨e.z, e.x, e.y, im.tile_data⟩ : TileRow))) = tiles
  apply flatMap_singletons
  rw [List.forall₂_iff_get]
  have hlenM := refMap_length chunk (tiles.length / chunk + 1) tiles hcov 0
  refine ⟨hlenM, ?_⟩
  intro i h1 h2
  have hm := refMap_getD chunk hc (tiles.length / chunk + 1) tiles 0 i h2 hcov
  have hget : (refMap chunk (tiles.length / chunk + 1) tiles 0).get ⟨i, h1⟩ =
      (⟨(tiles.getD i dTile).z, (tiles.getD i dTile).x, (tiles.getD i dTile).y,
        0 + baseAt chunk tiles (i / chunk) + 1 +
          idxOf (tiles.getD i dTile).data (chunkSeenAt chunk tiles (i / chunk))⟩ : MapRow) := by
    rw [List.get_eq_getElem, ← List.getD_eq_getElem _ dMap h1]
    exact hm
  have hmem := getD_mem_seen chunk hc tiles i h2
  have hk := idxOf_lt_length hmem
  have hcm : i / chunk * chunk < tiles.length := by
    have := Nat.div_mul_le_self i chunk
    omega
  have himg := refImages_mem chunk hc (tiles.length / chunk + 1) tiles 0 (i / chunk)
    (idxOf (tiles.getD i dTile).data (chunkSeenAt chunk tiles (i / chunk))) hcm hk hcov
  rw [getD_idxOf hmem] at himg
  have hsingle := filter_key_eq_single _ (refImages_keys_nodup chunk _ tiles 0)
    (0 + baseAt chunk tiles (i / chunk) + 1 +
      idxOf (tiles.getD i dTile).data (chunkSeenAt chunk tiles (i / chunk)))
    (tiles.getD i dTile).data himg
  show ((refImages chunk (tiles.length / chunk + 1) tiles 0).filter
      (fun im => im.tile_id ==
        ((refMap chunk (tiles.length / chunk + 1) tiles 0).get ⟨i, h1⟩).tile_id)).map
      (fun im => (⟨((refMap chunk (tiles.length / chunk + 1) tiles 0).get ⟨i, h1⟩).z,
        ((refMap chunk (tiles.length / chunk + 1) tiles 0).get ⟨i, h1⟩).x,
        ((refMap chunk (tiles.length / chunk + 1) tiles 0).get ⟨i, h1⟩).y,
        im.tile_data⟩ : TileRow)) = [tiles.get ⟨i, h2⟩]
  rw [hget]
  show ((refImages chunk (tiles.length / chunk + 1) tiles 0).filter
      (fun im => im.tile_id == 0 + baseAt chunk tiles (i / chunk) + 1 +
        idxOf (tiles.getD i dTile).data (chunkSeenAt chunk tiles (i / chunk)))).map
      (fun im => (⟨(tiles.getD i dTile).z, (tiles.getD i dTile).x, (tiles.getD i dTile).y,
        im.tile_data⟩ : TileRow)) = [tiles.get ⟨i, h2⟩]
  rw [hsingle]
  show [(⟨(tiles.getD i dTile).z, (tiles.getD i dTile).x, (tiles.getD i dTile).y,
    (tiles.getD i dTile).data⟩ : TileRow)] = [tiles.get ⟨i, h2⟩]
  have heta : (⟨(tiles.getD i dTile).z, (tiles.getD i dTile).x, (tiles.getD i dTile).y,
      (tiles.getD i dTile).data⟩ : TileRow) = tiles.getD i dTile := rfl
  rw [heta, List.getD_eq_getElem _ dTile h2, List.get_eq_getElem]

/-- Witness for C7 at chunk 2 on the duplicate-blob table. -/
theorem C7_view_equivalence_witness :
    (0 : Nat) < 2 ∧ tilesView (compression_do 2 exDupTiles) = exDupTiles :=
  ⟨by decide, C7_view_equivalence 2 (by decide) exDupTiles⟩

end Mbutil
